import Mathlib

/-
Verification of the particle-filter coordinator in
src/localization/auv_particle_filter/scripts/auv_pf.py (Python 2).
Rationals stand in for Python floats; where IEEE special values matter
(division by a zero sum) an explicit extended type `Fl` with NaN and
infinities is used.  Machine state touched by a method is passed
explicitly and returned, mutation in place becoming functional update.
-/

namespace AuvPF

/-- Integer chunk size computed in `auv_pf.__init__`:
`chunk_size = self.pc/self.nr_of_processes`.  The file is Python 2
(`print` statements), so `/` on ints is floor division. -/
def chunk_size (pc nr_of_processes : ℕ) : ℕ := pc / nr_of_processes

/-- Embedding of the Python call `range(0, stop, step)` for a natural step:
the ascending multiples of `step` below `stop`.  Python raises ValueError on
step 0; that case is modelled as the empty list (the claims about partitions
assume `nr_of_processes ≤ pc`, which keeps the step positive). -/
def pyRangeStep (stop step : ℕ) : List ℕ :=
  if step = 0 then [] else (List.range ((stop + step - 1) / step)).map (fun k => k * step)

/-- Partition list built by the worker-spawning loop of `auv_pf.__init__`:
for each `start_id` in `range(0, self.pc, chunk_size)`, the partition is
`(start_id, end_id)` with `end_id = self.pc` if `start_id + chunk_size > self.pc`
and `end_id = start_id + chunk_size` otherwise. -/
def partitions (pc nr_of_processes : ℕ) : List (ℕ × ℕ) :=
  (pyRangeStep pc (chunk_size pc nr_of_processes)).map
    (fun start_id =>
      (start_id,
        if pc < start_id + chunk_size pc nr_of_processes then pc
        else start_id + chunk_size pc nr_of_processes))

/-- Dynamic values manipulated by the coordinator's collection loop:
floats, ints, and (possibly nested) numpy arrays or Python lists. -/
inductive PyVal
  | float (q : ℚ)
  | int (n : ℤ)
  | arr (elems : List PyVal)

/-- Exceptions numpy can raise in the calls modelled here. -/
inductive NpError
  | typeError
  | valueError
  deriving DecidableEq, Repr

/-- Embedding of `np.concatenate` with two positional arguments, exactly as
called in `odom_callback` (`np.concatenate(weights, output[0])`).  The second
positional parameter of `np.concatenate` is `axis` and must be an integer
scalar; an array or list there raises TypeError.  With an integer axis, the
first argument must be a non-empty sequence whose elements are arrays (an
empty sequence raises ValueError; scalar elements cannot be concatenated). -/
def npConcatenate2 (seq : PyVal) (axis : PyVal) : Except NpError PyVal :=
  match axis with
  | PyVal.int _ =>
    match seq with
    | PyVal.arr [] => Except.error NpError.valueError
    | PyVal.arr (e :: es) =>
        if (e :: es).all (fun v => match v with | PyVal.arr _ => true | _ => false)
        then Except.ok (PyVal.arr ((e :: es).foldr
          (fun v acc => match v with | PyVal.arr xs => xs ++ acc | _ => acc) []))
        else Except.error NpError.typeError
    | _ => Except.error NpError.typeError
  | _ => Except.error NpError.typeError

/-- One iteration of the collection loop in `odom_callback`:
`weights = np.concatenate(weights, output[0])` then
`ids = np.concatenate(ids, output[1])`; a raised exception aborts the loop. -/
def collectStep (acc : PyVal × PyVal) (output : PyVal × PyVal) :
    Except NpError (PyVal × PyVal) := do
  let w ← npConcatenate2 acc.1 output.1
  let i ← npConcatenate2 acc.2 output.2
  Except.ok (w, i)

/-- Embedding of the whole collection loop of `odom_callback` (lines 160-168):
starting from `weights = np.zeros(0)` and `ids = np.zeros(0)`, fold
`collectStep` over the `nr_of_processes` worker outputs taken off the queue. -/
def collectWeights (outputs : List (PyVal × PyVal)) : Except NpError (PyVal × PyVal) :=
  outputs.foldlM collectStep (PyVal.arr [], PyVal.arr [])

/-- Odometry message: only its timestamp matters to the coordinator's
bookkeeping (`odom_msg.header.stamp.to_sec()`). -/
structure OdomMsg where
  stamp : ℚ
  deriving DecidableEq, Repr

/-- Coordinator state read and written by `odom_callback`. -/
structure CoordState where
  old_time : Option ℚ
  prev_mbes_stamp : ℚ
  motion_prediction_params : List (OdomMsg × ℚ)
  deriving DecidableEq, Repr

/-- Embedding of `auv_pf.odom_callback` state handling (lines 144-173).
`latest_mbes_stamp` is the stamp of `self.latest_mbes` at call time.  The
returned Option is the motion list dispatched to the worker queues this call
(`q_input`'s second component), or `none` when no filter step triggers.
Python truthiness of `if self.old_time` makes a stored time of exactly `0`
falsy, hence the `ot ≠ 0` conjunct. -/
def odom_callback (st : CoordState) (odom : OdomMsg) (latest_mbes_stamp : ℚ) :
    CoordState × Option (List (OdomMsg × ℚ)) :=
  let time := odom.stamp
  match st.old_time with
  | some ot =>
    if ot ≠ 0 ∧ ot < time then
      let dt := time - ot
      let params := st.motion_prediction_params ++ [(odom, dt)]
      if st.prev_mbes_stamp < latest_mbes_stamp then
        ({ old_time := some time, prev_mbes_stamp := latest_mbes_stamp,
           motion_prediction_params := params }, some params)
      else
        ({ old_time := some time, prev_mbes_stamp := st.prev_mbes_stamp,
           motion_prediction_params := params }, none)
    else
      ({ st with old_time := some time }, none)
  | none => ({ st with old_time := some time }, none)

/-- C1: the coordinator's collection loop never assembles a weight vector at
all: on the very first worker response, `np.concatenate(weights, output[0])`
passes the partial weights array where numpy expects the integer `axis`
argument, raising TypeError; with one worker reporting weights `[1.0]` for
id `0`, the loop aborts exceptionally instead of producing a vector covering
all ids (and no missing/duplicate-id check exists anywhere in the loop). -/
theorem C1_collection_raises :
    collectWeights [(PyVal.arr [PyVal.float 1], PyVal.arr [PyVal.int 0])] =
      Except.error NpError.typeError := by
  rfl

/-- C2: the pending-motion accumulator `motion_prediction_params` is never
cleared.  Starting from the initial coordinator state, odometry at t=1 seeds
`old_time`; odometry at t=2 with a fresh measurement (stamp 5) dispatches the
motion sample (stamp 2, dt 1); odometry at t=3 with another fresh measurement
(stamp 7) dispatches a list that still contains that same sample, so the
sample is applied by the workers in two distinct filter steps. -/
theorem C2_motion_redispatched :
    (odom_callback ((odom_callback
        { old_time := none, prev_mbes_stamp := 0, motion_prediction_params := [] }
        { stamp := 1 } 0).1) { stamp := 2 } 5).2 = some [({ stamp := 2 }, 1)] ∧
    (odom_callback ((odom_callback ((odom_callback
        { old_time := none, prev_mbes_stamp := 0, motion_prediction_params := [] }
        { stamp := 1 } 0).1) { stamp := 2 } 5).1) { stamp := 3 } 7).2 =
      some [({ stamp := 2 }, 1), ({ stamp := 3 }, 1)] := by
  constructor
  · norm_num [odom_callback]
  · norm_num [odom_callback]

/-- C7 counterexample: with N = 10 particles and 3 workers (chunk size
10/3 = 3) the startup loop builds 4 partitions of sizes 3,3,3,1 — more
partitions than workers — and the sizes 3 and 1 differ by 2, which exceeds
the remainder 10 % 3 = 1 allowed by the claim. -/
theorem C7_counterexample :
    partitions 10 3 = [(0, 3), (3, 6), (6, 9), (9, 10)] ∧
    (partitions 10 3).length = 4 ∧
    (0, 3) ∈ partitions 10 3 ∧ (9, 10) ∈ partitions 10 3 ∧
    ¬ (3 - 0 ≤ (10 - 9) + 10 % 3) := by
  refine ⟨by decide, by decide, by decide, by decide, by decide⟩

/-- Values flowing through `auv_pf.resample`: exact rationals extended with
the IEEE special values produced by dividing by a zero sum.  Rounding is
idealized away (finite arithmetic is exact), but NaN/infinity production and
propagation follow IEEE-754, which is what decides the degenerate-weights
branch.  The sign of zero is not modelled. -/
inductive Fl
  | num (q : ℚ)
  | pinf
  | ninf
  | nan
  deriving DecidableEq, Repr

/-- IEEE-style addition on `Fl`. -/
def flAdd : Fl → Fl → Fl
  | Fl.nan, _ => Fl.nan
  | _, Fl.nan => Fl.nan
  | Fl.pinf, Fl.ninf => Fl.nan
  | Fl.ninf, Fl.pinf => Fl.nan
  | Fl.pinf, _ => Fl.pinf
  | _, Fl.pinf => Fl.pinf
  | Fl.ninf, _ => Fl.ninf
  | _, Fl.ninf => Fl.ninf
  | Fl.num a, Fl.num b => Fl.num (a + b)

/-- IEEE-style division on `Fl`: `0/0 = NaN`, `x/0 = ±∞` for `x ≠ 0`. -/
def flDiv : Fl → Fl → Fl
  | Fl.nan, _ => Fl.nan
  | _, Fl.nan => Fl.nan
  | Fl.num a, Fl.num b =>
      if b = 0 then (if a = 0 then Fl.nan else if 0 < a then Fl.pinf else Fl.ninf)
      else Fl.num (a / b)
  | Fl.num _, Fl.pinf => Fl.num 0
  | Fl.num _, Fl.ninf => Fl.num 0
  | Fl.pinf, Fl.num b => if 0 ≤ b then Fl.pinf else Fl.ninf
  | Fl.ninf, Fl.num b => if 0 ≤ b then Fl.ninf else Fl.pinf
  | Fl.pinf, Fl.pinf => Fl.nan
  | Fl.pinf, Fl.ninf => Fl.nan
  | Fl.ninf, Fl.pinf => Fl.nan
  | Fl.ninf, Fl.ninf => Fl.nan

/-- Squaring on `Fl` (`np.square`). -/
def flSq : Fl → Fl
  | Fl.nan => Fl.nan
  | Fl.pinf => Fl.pinf
  | Fl.ninf => Fl.pinf
  | Fl.num a => Fl.num (a * a)

/-- IEEE comparison `<` on `Fl`: any comparison with NaN is false. -/
def flLt : Fl → Fl → Bool
  | Fl.nan, _ => false
  | _, Fl.nan => false
  | Fl.pinf, _ => false
  | _, Fl.pinf => true
  | Fl.ninf, Fl.ninf => false
  | Fl.ninf, Fl.num _ => true
  | Fl.num _, Fl.ninf => false
  | Fl.num a, Fl.num b => decide (a < b)

/-- IEEE equality test on `Fl`: NaN compares unequal to everything. -/
def flEq : Fl → Fl → Bool
  | Fl.nan, _ => false
  | _, Fl.nan => false
  | Fl.pinf, Fl.pinf => true
  | Fl.ninf, Fl.ninf => true
  | Fl.num a, Fl.num b => decide (a = b)
  | _, _ => false

/-- Sum of an array of `Fl` values (`weights.sum()`, `np.sum`). -/
def flSum (l : List Fl) : Fl := l.foldr flAdd (Fl.num 0)

/-- Observable outcome of one call of `auv_pf.resample` (lines 181-215):
the weight array after the in-place normalization, whether the
`"All weights zero!"` branch logged, the `N_eff` value used for the
threshold test, and whether the resampling branch was entered. -/
structure ResampleTrace where
  normalized : List Fl
  logged_all_zero : Bool
  n_eff : Fl
  did_resample : Bool
  deriving DecidableEq, Repr

/-- Embedding of the control flow of `auv_pf.resample`:
`weights /= weights.sum()` first (unconditionally), then
`N_eff = self.pc`; `if weights.sum() == 0.` log, `else` set
`N_eff = 1/np.sum(np.square(weights))`; finally the branch test
`N_eff < self.pc*0.5`. -/
def resampleTrace (pc : ℕ) (weights : List Fl) : ResampleTrace :=
  let s := flSum weights
  let w := weights.map (fun x => flDiv x s)
  let zero := flEq (flSum w) (Fl.num 0)
  let n_eff := if zero then Fl.num (pc : ℚ)
    else flDiv (Fl.num 1) (flSum (w.map flSq))
  { normalized := w
    logged_all_zero := zero
    n_eff := n_eff
    did_resample := flLt n_eff (Fl.num ((pc : ℚ) / 2)) }

/-- C3: with N = 2 and the zero-sum weight vector `[0.0, 0.0]`, `resample`
divides by the zero sum before any check, turning both weights into NaN;
the subsequent `weights.sum() == 0.` test compares NaN to 0 and is false, so
the degenerate-weights condition is never reported; `N_eff` becomes NaN and
the NaN threshold comparison is false, so resampling is skipped — but not
because the condition was detected, and normalization was applied to the
zero-sum vector, contrary to the claim. -/
theorem C3_zero_sum_divided :
    resampleTrace 2 [Fl.num 0, Fl.num 0] =
      { normalized := [Fl.nan, Fl.nan]
        logged_all_zero := false
        n_eff := Fl.nan
        did_resample := false } := by
  norm_num [resampleTrace, flSum, flAdd, flDiv, flSq, flEq, flLt]

/-- Sum of an all-finite weight array is the finite sum of the entries. -/
theorem flSum_map_num (qs : List ℚ) : flSum (qs.map Fl.num) = Fl.num qs.sum := by
  induction qs with
  | nil => rfl
  | cons a t ih => simp [flSum, flAdd, List.map_cons] at ih ⊢; rw [ih]

/-- Dividing every entry by a constant divides the sum. -/
theorem sum_map_div (l : List ℚ) (c : ℚ) : (l.map (fun q => q / c)).sum = l.sum / c := by
  induction l with
  | nil => simp
  | cons a t ih => simp [ih, add_div]

/-- A nonnegative list with positive sum has a positive entry. -/
theorem exists_pos_of_sum_pos (qs : List ℚ) (hnn : ∀ q ∈ qs, 0 ≤ q) (hsum : 0 < qs.sum) :
    ∃ q ∈ qs, 0 < q := by
  by_contra h
  push_neg at h
  have hz : qs.sum = 0 :=
    List.sum_eq_zero (fun x hx => le_antisymm (h x hx) (hnn x hx))
  rw [hz] at hsum
  exact lt_irrefl 0 hsum

/-- For a weight vector of rationals with positive sum, the whole
`resample` prologue stays finite and computes exactly the textbook
quantities: normalization by the sum, no degenerate log, the effective
sample size `1/Σ(w_i²)` of the normalized vector, and the threshold test
against `pc * 0.5`. -/
theorem resampleTrace_pos (pc : ℕ) (qs : List ℚ)
    (hnn : ∀ q ∈ qs, 0 ≤ q) (hsum : 0 < qs.sum) :
    resampleTrace pc (qs.map Fl.num) =
      { normalized := (qs.map (fun q => q / qs.sum)).map Fl.num
        logged_all_zero := false
        n_eff := Fl.num (1 / ((qs.map (fun q => q / qs.sum)).map (fun x => x * x)).sum)
        did_resample :=
          decide (1 / ((qs.map (fun q => q / qs.sum)).map (fun x => x * x)).sum
            < (pc : ℚ) / 2) } := by
  have hS : qs.sum ≠ 0 := ne_of_gt hsum
  have hmap : (qs.map Fl.num).map (fun x => flDiv x (Fl.num qs.sum))
      = (qs.map (fun q => q / qs.sum)).map Fl.num := by
    rw [List.map_map, List.map_map]
    refine List.map_congr_left ?_
    intro a _
    simp [Function.comp, flDiv, hS]
  have hone : (qs.map (fun q => q / qs.sum)).sum = 1 := by
    rw [sum_map_div, div_self hS]
  have hsq : ∀ l : List ℚ, (l.map Fl.num).map flSq = (l.map (fun x => x * x)).map Fl.num := by
    intro l
    rw [List.map_map, List.map_map]
    exact List.map_congr_left (fun a _ => rfl)
  have hTpos : 0 < ((qs.map (fun q => q / qs.sum)).map (fun x => x * x)).sum := by
    obtain ⟨q, hq, hqpos⟩ := exists_pos_of_sum_pos qs hnn hsum
    have hmem : (q / qs.sum) * (q / qs.sum)
        ∈ (qs.map (fun q => q / qs.sum)).map (fun x => x * x) :=
      List.mem_map_of_mem _ (List.mem_map_of_mem _ hq)
    have hnn2 : ∀ x ∈ (qs.map (fun q => q / qs.sum)).map (fun x => x * x), 0 ≤ x := by
      intro x hx
      obtain ⟨y, _, rfl⟩ := List.mem_map.mp hx
      exact mul_self_nonneg y
    have hle := List.single_le_sum hnn2 _ hmem
    have hppos : 0 < (q / qs.sum) * (q / qs.sum) :=
      mul_pos (div_pos hqpos hsum) (div_pos hqpos hsum)
    exact lt_of_lt_of_le hppos hle
  have hT : ((qs.map (fun q => q / qs.sum)).map (fun x => x * x)).sum ≠ 0 :=
    ne_of_gt hTpos
  simp only [resampleTrace]
  rw [flSum_map_num, hmap, flSum_map_num, hone, hsq, flSum_map_num]
  have heq : flEq (Fl.num 1) (Fl.num 0) = false := by simp [flEq]
  rw [heq]
  have hdiv : flDiv (Fl.num 1)
      (Fl.num ((qs.map (fun q => q / qs.sum)).map (fun x => x * x)).sum)
      = Fl.num (1 / ((qs.map (fun q => q / qs.sum)).map (fun x => x * x)).sum) := by
    simp only [flDiv]
    rw [if_neg hT]
  simp only [Bool.false_eq_true, if_false, hdiv, flLt]

/-- C4: for every weight vector of nonnegative rationals with positive sum
(in particular for one already normalized to sum 1), `resample` normalizes by
the sum and uses the effective sample size `N_eff = 1/Σ(w_i²)` of the
normalized vector, entering the resampling branch exactly when
`N_eff < 0.5 * N`; moreover `N_eff` is N on the uniform vector of length N
and 1 on a one-hot vector of length N. -/
theorem C4_n_eff :
    (∀ (pc : ℕ) (qs : List ℚ), (∀ q ∈ qs, 0 ≤ q) → 0 < qs.sum →
      (resampleTrace pc (qs.map Fl.num)).normalized
          = (qs.map (fun q => q / qs.sum)).map Fl.num ∧
      (resampleTrace pc (qs.map Fl.num)).n_eff
          = Fl.num (1 / ((qs.map (fun q => q / qs.sum)).map (fun x => x * x)).sum) ∧
      ((resampleTrace pc (qs.map Fl.num)).did_resample = true ↔
        1 / ((qs.map (fun q => q / qs.sum)).map (fun x => x * x)).sum < (pc : ℚ) / 2)) ∧
    (∀ n : ℕ, 0 < n →
      (resampleTrace n (List.replicate n (Fl.num (1 / ((n : ℕ) : ℚ))))).n_eff
        = Fl.num ((n : ℕ) : ℚ)) ∧
    (∀ n : ℕ, 0 < n →
      (resampleTrace n (Fl.num 1 :: List.replicate (n - 1) (Fl.num 0))).n_eff
        = Fl.num 1) := by
  refine ⟨?_, ?_, ?_⟩
  · intro pc qs hnn hsum
    rw [resampleTrace_pos pc qs hnn hsum]
    refine ⟨rfl, rfl, ?_⟩
    exact decide_eq_true_iff
  · intro n hn
    have hcast : ((n : ℕ) : ℚ) ≠ 0 := Nat.cast_ne_zero.mpr (Nat.pos_iff_ne_zero.mp hn)
    have hrepl : List.replicate n (Fl.num (1 / ((n : ℕ) : ℚ)))
        = (List.replicate n ((1 : ℚ) / ((n : ℕ) : ℚ))).map Fl.num := by
      rw [List.map_replicate]
    have hsum1 : (List.replicate n ((1 : ℚ) / ((n : ℕ) : ℚ))).sum = 1 := by
      rw [List.sum_replicate, nsmul_eq_mul]
      field_simp
    rw [hrepl, resampleTrace_pos n _
      (fun q hq => by
        rw [List.eq_of_mem_replicate hq]
        positivity)
      (by rw [hsum1]; norm_num)]
    simp only [hsum1, List.map_replicate, List.sum_replicate, div_one, nsmul_eq_mul]
    congr 1
    field_simp
  · intro n hn
    have hlist : Fl.num 1 :: List.replicate (n - 1) (Fl.num 0)
        = ((1 : ℚ) :: List.replicate (n - 1) (0 : ℚ)).map Fl.num := by
      rw [List.map_cons, List.map_replicate]
    have hsum1 : ((1 : ℚ) :: List.replicate (n - 1) (0 : ℚ)).sum = 1 := by
      simp
    rw [hlist, resampleTrace_pos n _
      (fun q hq => by
        rcases List.mem_cons.mp hq with h | h
        · rw [h]; norm_num
        · rw [List.eq_of_mem_replicate h])
      (by rw [hsum1]; norm_num)]
    simp [hsum1]

/-- C4 witness: at N = 4 with the uniform weight vector `[1/4,1/4,1/4,1/4]`,
the effective sample size computed by `resample` is exactly 4. -/
theorem C4_witness :
    (resampleTrace 4 (List.replicate 4 (Fl.num (1 / ((4 : ℕ) : ℚ))))).n_eff
      = Fl.num ((4 : ℕ) : ℚ) :=
  C4_n_eff.2.1 4 (by decide)

/-- Pose record with exactly the seven fields `reassign_poses` copies:
position x,y,z and orientation x,y,z,w of a `geometry_msgs` Pose. -/
structure Pose where
  position_x : ℚ
  position_y : ℚ
  position_z : ℚ
  orientation_x : ℚ
  orientation_y : ℚ
  orientation_z : ℚ
  orientation_w : ℚ
  deriving DecidableEq, Repr, Inhabited

/-- Particle state the coordinator and workers touch: the pose `p_pose`
and the weight `w` (overwritten by the worker's measurement update). -/
structure Particle where
  p_pose : Pose
  w : ℚ
  deriving DecidableEq, Repr, Inhabited

/-- Embedding of `auv_pf.reassign_poses` (lines 217-226): for each `i` in
`range(len(lost))`, copy the seven pose fields of `self.particles[dupes[i]]`
into `self.particles[lost[i]]`, sequentially, each copy reading the store as
already mutated by the previous ones.  The particle store is a total map
from id to particle, matching the object array indexed by id. -/
def reassign_poses : (ℕ → Particle) → List ℕ → List ℕ → (ℕ → Particle)
  | ps, [], _ => ps
  | ps, _ :: _, [] => ps
  | ps, l :: ls, d :: ds =>
      reassign_poses
        (Function.update ps l
          { ps l with p_pose :=
              { position_x := (ps d).p_pose.position_x
                position_y := (ps d).p_pose.position_y
                position_z := (ps d).p_pose.position_z
                orientation_x := (ps d).p_pose.orientation_x
                orientation_y := (ps d).p_pose.orientation_y
                orientation_z := (ps d).p_pose.orientation_z
                orientation_w := (ps d).p_pose.orientation_w } })
        ls ds

/-- keep: `list(set(indices))` in `resample` — the distinct resampled ids
(iteration order of the Python set is irrelevant to everything proved here). -/
def keepOf (indices : List ℕ) : List ℕ := indices.dedup

/-- lost: `[i for i in range(self.pc) if i not in keep]`. -/
def lostOf (pc : ℕ) (indices : List ℕ) : List ℕ :=
  (List.range pc).filter (fun i => decide (i ∉ keepOf indices))

/-- dupes: `indices[:].tolist()` followed by `dupes.remove(i)` for each `i`
in keep — one occurrence of each distinct resampled id removed. -/
def dupesOf (indices : List ℕ) : List ℕ :=
  (keepOf indices).foldl (fun l i => l.erase i) indices

/-- Repeatedly erasing one occurrence each of a duplicate-free list of
present elements shortens a list by exactly that many entries. -/
theorem foldl_erase_length (ks : List ℕ) :
    ∀ ms : List ℕ, ks.Nodup → (∀ k ∈ ks, k ∈ ms) →
      (ks.foldl (fun l i => l.erase i) ms).length = ms.length - ks.length := by
  induction ks with
  | nil => intro ms _ _; simp
  | cons k ks ih =>
    intro ms hnd hsub
    simp only [List.foldl_cons]
    have hk : k ∈ ms := hsub k (List.mem_cons_self k ks)
    have hstep : ∀ k' ∈ ks, k' ∈ ms.erase k := by
      intro k' hk'
      refine (List.mem_erase_of_ne ?_).mpr (hsub k' (List.mem_cons_of_mem _ hk'))
      intro hkk
      exact (List.nodup_cons.mp hnd).1 (hkk ▸ hk')
    rw [ih (ms.erase k) (List.nodup_cons.mp hnd).2 hstep,
      List.length_erase_of_mem hk, List.length_cons]
    omega

/-- The erase-fold only removes elements: its result is a sublist of the
start list as far as membership goes. -/
theorem foldl_erase_subset (ks : List ℕ) :
    ∀ ms : List ℕ, ks.foldl (fun l i => l.erase i) ms ⊆ ms := by
  induction ks with
  | nil => intro ms x hx; exact hx
  | cons k ks ih =>
    intro ms x hx
    simp only [List.foldl_cons] at hx
    exact List.erase_subset _ _ (ih (ms.erase k) hx)

/-- Length of the lost list: the ids of `range(pc)` outside keep number
`pc - len(keep)` whenever every resampled id is below `pc`. -/
theorem length_lost (pc : ℕ) (indices : List ℕ) (hmem : ∀ x ∈ indices, x < pc) :
    (lostOf pc indices).length = pc - (keepOf indices).length := by
  have hsplit := List.length_eq_length_filter_add
    (l := List.range pc) (fun i => decide (i ∈ keepOf indices))
  have hin : ((List.range pc).filter (fun i => decide (i ∈ keepOf indices))).length
      = (keepOf indices).length := by
    refine (List.perm_ext_iff_of_nodup
      ((List.nodup_range pc).filter _) (List.nodup_dedup indices) |>.mpr ?_).length_eq
    intro a
    simp only [List.mem_filter, List.mem_range, decide_eq_true_eq]
    constructor
    · exact fun h => h.2
    · intro h
      exact ⟨hmem a (List.mem_dedup.mp h), h⟩
  have hlost : lostOf pc indices
      = (List.range pc).filter (fun i => !(decide (i ∈ keepOf indices))) := by
    simp only [lostOf, decide_not]
  rw [hlost]
  rw [List.length_range] at hsplit
  omega

/-- Frame property of the sequential pose copy: an id that is never a copy
target keeps its particle unchanged. -/
theorem reassign_frame :
    ∀ (lost : List ℕ) (ps : ℕ → Particle) (dupes : List ℕ) (x : ℕ),
      x ∉ lost → reassign_poses ps lost dupes x = ps x := by
  intro lost
  induction lost with
  | nil => intro ps dupes x _; rfl
  | cons l ls ih =>
    intro ps dupes x hx
    cases dupes with
    | nil => rfl
    | cons d ds =>
      have hxl : x ≠ l := fun h => hx (h ▸ List.mem_cons_self l ls)
      have hxls : x ∉ ls := fun h => hx (List.mem_cons_of_mem _ h)
      show reassign_poses (Function.update ps l _) ls ds x = ps x
      rw [ih _ ds x hxls, Function.update_noteq hxl]

/-- Sequential pose copy with duplicate-free targets whose sources are never
targets: the i-th target ends with exactly the i-th source's original pose. -/
theorem reassign_get :
    ∀ (lost : List ℕ) (ps : ℕ → Particle) (dupes : List ℕ),
      lost.Nodup → (∀ d ∈ dupes, d ∉ lost) → lost.length = dupes.length →
      ∀ i, i < lost.length →
        (reassign_poses ps lost dupes (lost.getD i 0)).p_pose
          = (ps (dupes.getD i 0)).p_pose := by
  intro lost
  induction lost with
  | nil => intro ps dupes _ _ _ i hi; exact absurd hi (by simp)
  | cons l ls ih =>
    intro ps dupes hnd hdisj hlen i hi
    cases dupes with
    | nil => simp at hlen
    | cons d ds =>
      cases i with
      | zero =>
        have hl : l ∉ ls := (List.nodup_cons.mp hnd).1
        show (reassign_poses (Function.update ps l _) ls ds
          ((l :: ls).getD 0 0)).p_pose = (ps ((d :: ds).getD 0 0)).p_pose
        rw [List.getD_cons_zero, List.getD_cons_zero, reassign_frame ls _ ds l hl,
          Function.update_same]
      | succ j =>
        have hj : j < ls.length := by
          simpa using hi
        have hdj : (ds.getD j 0) ∈ ds := by
          have hjd : j < ds.length := by
            have := hlen
            simp only [List.length_cons] at this
            omega
          rw [List.getD_eq_getElem ds 0 hjd]
          exact List.getElem_mem hjd
        have hdl : (ds.getD j 0) ≠ l := by
          intro h
          exact hdisj _ (List.mem_cons_of_mem _ hdj) (h ▸ List.mem_cons_self l ls)
        show (reassign_poses (Function.update ps l _) ls ds
          ((l :: ls).getD (j + 1) 0)).p_pose = (ps ((d :: ds).getD (j + 1) 0)).p_pose
        rw [List.getD_cons_succ, List.getD_cons_succ]
        rw [ih _ ds (List.nodup_cons.mp hnd).2
          (fun d' hd' hls => hdisj d' (List.mem_cons_of_mem _ hd')
            (List.mem_cons_of_mem _ hls))
          (by simpa using hlen) j hj]
        rw [Function.update_noteq hdl]

/-- Every dupe id is itself a resampled (kept) id, hence not lost. -/
theorem dupes_not_lost (pc : ℕ) (indices : List ℕ) :
    ∀ d ∈ dupesOf indices, d ∉ lostOf pc indices := by
  intro d hd hlost
  have hind : d ∈ indices := foldl_erase_subset _ _ hd
  have hkeep : d ∈ keepOf indices := List.mem_dedup.mpr hind
  have hnk := (List.mem_filter.mp hlost).2
  simp only [decide_eq_true_eq] at hnk
  exact hnk hkeep

/-- C5: for a resampled id multiset `indices` of length `pc` over `[0, pc)`,
the dupes list has exactly as many entries as the lost list, and after
`reassign_poses` the particle at `lost[i]` carries exactly the (pre-copy,
pre-noise) pose of the particle at `dupes[i]` — all seven fields. -/
theorem C5_reassign (pc : ℕ) (indices : List ℕ) (particles : ℕ → Particle)
    (hlen : indices.length = pc) (hmem : ∀ x ∈ indices, x < pc) :
    (dupesOf indices).length = (lostOf pc indices).length ∧
    (∀ i, i < (lostOf pc indices).length →
      (reassign_poses particles (lostOf pc indices) (dupesOf indices)
          ((lostOf pc indices).getD i 0)).p_pose
        = (particles ((dupesOf indices).getD i 0)).p_pose) := by
  have hkeepnd : (keepOf indices).Nodup := List.nodup_dedup indices
  have hkeepsub : ∀ k ∈ keepOf indices, k ∈ indices := fun k hk => List.mem_dedup.mp hk
  have hdlen : (dupesOf indices).length = indices.length - (keepOf indices).length :=
    foldl_erase_length _ _ hkeepnd hkeepsub
  have hllen : (lostOf pc indices).length = pc - (keepOf indices).length :=
    length_lost pc indices hmem
  have hlostnd : (lostOf pc indices).Nodup := (List.nodup_range pc).filter _
  refine ⟨by rw [hdlen, hllen, hlen], ?_⟩
  intro i hi
  exact reassign_get (lostOf pc indices) particles (dupesOf indices)
    hlostnd (dupes_not_lost pc indices) (by rw [hllen, hdlen, hlen]) i hi

/-- Concrete particle store used only to evaluate theorems at concrete
inputs: particle n sits at x = n with identity orientation and weight 0. -/
def probeStore : ℕ → Particle := fun n =>
  { p_pose :=
      { position_x := (n : ℚ)
        position_y := 0
        position_z := 0
        orientation_x := 0
        orientation_y := 0
        orientation_z := 0
        orientation_w := 1 }
    w := 0 }

/-- C5 witness: pc = 4, resampled ids `[0, 0, 2, 2]`: keep is set(0,2),
lost is `[1, 3]`, dupes is `[0, 2]`; after reassignment particle 1 has
particle 0's pose and particle 3 has particle 2's pose. -/
theorem C5_witness :
    (dupesOf [0, 0, 2, 2]).length = (lostOf 4 [0, 0, 2, 2]).length ∧
    (∀ i, i < (lostOf 4 [0, 0, 2, 2]).length →
      (reassign_poses probeStore (lostOf 4 [0, 0, 2, 2]) (dupesOf [0, 0, 2, 2])
          ((lostOf 4 [0, 0, 2, 2]).getD i 0)).p_pose
        = (probeStore ((dupesOf [0, 0, 2, 2]).getD i 0)).p_pose) :=
  C5_reassign 4 [0, 0, 2, 2] probeStore (by decide) (by decide)

/-- Exact rational value of the IEEE double `math.pi` used by `average_pose`. -/
def mathPi : ℚ := 884279719003555 / 281474976710656

/-- One entry of `pose_list`: a particle pose as `[x, y, z, roll, pitch, yaw]`. -/
structure PoseVec where
  x : ℚ
  y : ℚ
  z : ℚ
  roll : ℚ
  pitch : ℚ
  yaw : ℚ
  deriving DecidableEq, Repr

/-- Mean of one column of `poses_array.mean(axis = 0)`. -/
def colMean (l : List ℚ) : ℚ := l.sum / l.length

/-- Value of `np.abs(yaws).min()`: minimum absolute value over the array.
Numpy raises on an empty array; that case is modelled as 0 and excluded by
the non-empty hypothesis of the claims. -/
def minAbsList (l : List ℚ) : ℚ :=
  match l with
  | [] => 0
  | a :: rest => rest.foldl (fun m b => min m |b|) |a|

/-- Published aggregated pose: position, the Euler angles handed to
`quaternion_from_euler`, and the header stamp. -/
structure AvgPose where
  x : ℚ
  y : ℚ
  z : ℚ
  roll : ℚ
  pitch : ℚ
  yaw : ℚ
  stamp : ℚ
  deriving DecidableEq, Repr

/-- Embedding of `auv_pf.average_pose` (lines 228-264): componentwise mean of
the pose list; for yaw, when `np.abs(yaws).min() > math.pi/2`, every negative
yaw gets `2*math.pi` added before the mean is taken.  The ambient call
`rospy.Time.now()` that stamps the outgoing message is the explicit `now`
argument of the embedding. -/
def average_pose (now : ℚ) (pose_list : List PoseVec) : AvgPose :=
  let yaws := pose_list.map PoseVec.yaw
  let yaws2 := if mathPi / 2 < minAbsList yaws
    then yaws.map (fun y => if y < 0 then y + 2 * mathPi else y)
    else yaws
  { x := colMean (pose_list.map PoseVec.x)
    y := colMean (pose_list.map PoseVec.y)
    z := colMean (pose_list.map PoseVec.z)
    roll := colMean (pose_list.map PoseVec.roll)
    pitch := colMean (pose_list.map PoseVec.pitch)
    yaw := colMean yaws2
    stamp := now }

/-- Pose vector that differs from the origin only in its yaw. -/
def straightYaw (yv : ℚ) : PoseVec :=
  { x := 0, y := 0, z := 0, roll := 0, pitch := 0, yaw := yv }

/-- C6: on every non-empty pose list the aggregate is the arithmetic mean in
x, y, z, roll and pitch; yaw is averaged after adding `2π` to the negative
yaws exactly when the minimum absolute yaw exceeds `π/2`, and otherwise
averaged directly; in particular yaws 3.0 and -3.0 aggregate to `math.pi`
(≈ ±π), not to a value near 0. -/
theorem C6_average_pose (now : ℚ) (pl : List PoseVec) (hne : pl ≠ []) :
    (average_pose now pl).x = (pl.map PoseVec.x).sum / pl.length ∧
    (average_pose now pl).y = (pl.map PoseVec.y).sum / pl.length ∧
    (average_pose now pl).z = (pl.map PoseVec.z).sum / pl.length ∧
    (average_pose now pl).roll = (pl.map PoseVec.roll).sum / pl.length ∧
    (average_pose now pl).pitch = (pl.map PoseVec.pitch).sum / pl.length ∧
    (mathPi / 2 < minAbsList (pl.map PoseVec.yaw) →
      (average_pose now pl).yaw
        = ((pl.map PoseVec.yaw).map (fun yv => if yv < 0 then yv + 2 * mathPi else yv)).sum
            / pl.length) ∧
    (¬ mathPi / 2 < minAbsList (pl.map PoseVec.yaw) →
      (average_pose now pl).yaw = (pl.map PoseVec.yaw).sum / pl.length) ∧
    (average_pose 0 [straightYaw 3, straightYaw (-3)]).yaw = mathPi ∧
    3 < mathPi := by
  refine ⟨?_, ?_, ?_, ?_, ?_, ?_, ?_, ?_, ?_⟩
  · simp [average_pose, colMean]
  · simp [average_pose, colMean]
  · simp [average_pose, colMean]
  · simp [average_pose, colMean]
  · simp [average_pose, colMean]
  · intro h
    simp only [average_pose]
    rw [if_pos h]
    simp [colMean]
  · intro h
    simp only [average_pose]
    rw [if_neg h]
    simp [colMean]
  · have hcond : mathPi / 2
        < minAbsList ([straightYaw 3, straightYaw (-3)].map PoseVec.yaw) := by
      norm_num [minAbsList, straightYaw, mathPi]
    simp only [average_pose]
    rw [if_pos hcond]
    norm_num [straightYaw, colMean, mathPi]
  · norm_num [mathPi]

/-- C6 witness: the theorem evaluated at the two-particle list with yaws
3.0 and -3.0 at publication time 0. -/
theorem C6_witness :
    (average_pose 0 [straightYaw 3, straightYaw (-3)]).x
        = ([straightYaw 3, straightYaw (-3)].map PoseVec.x).sum
            / ([straightYaw 3, straightYaw (-3)] : List PoseVec).length ∧
    (average_pose 0 [straightYaw 3, straightYaw (-3)]).y
        = ([straightYaw 3, straightYaw (-3)].map PoseVec.y).sum
            / ([straightYaw 3, straightYaw (-3)] : List PoseVec).length ∧
    (average_pose 0 [straightYaw 3, straightYaw (-3)]).z
        = ([straightYaw 3, straightYaw (-3)].map PoseVec.z).sum
            / ([straightYaw 3, straightYaw (-3)] : List PoseVec).length ∧
    (average_pose 0 [straightYaw 3, straightYaw (-3)]).roll
        = ([straightYaw 3, straightYaw (-3)].map PoseVec.roll).sum
            / ([straightYaw 3, straightYaw (-3)] : List PoseVec).length ∧
    (average_pose 0 [straightYaw 3, straightYaw (-3)]).pitch
        = ([straightYaw 3, straightYaw (-3)].map PoseVec.pitch).sum
            / ([straightYaw 3, straightYaw (-3)] : List PoseVec).length ∧
    (mathPi / 2 < minAbsList ([straightYaw 3, straightYaw (-3)].map PoseVec.yaw) →
      (average_pose 0 [straightYaw 3, straightYaw (-3)]).yaw
        = (([straightYaw 3, straightYaw (-3)].map PoseVec.yaw).map
              (fun yv => if yv < 0 then yv + 2 * mathPi else yv)).sum
            / ([straightYaw 3, straightYaw (-3)] : List PoseVec).length) ∧
    (¬ mathPi / 2 < minAbsList ([straightYaw 3, straightYaw (-3)].map PoseVec.yaw) →
      (average_pose 0 [straightYaw 3, straightYaw (-3)]).yaw
        = ([straightYaw 3, straightYaw (-3)].map PoseVec.yaw).sum
            / ([straightYaw 3, straightYaw (-3)] : List PoseVec).length) ∧
    (average_pose 0 [straightYaw 3, straightYaw (-3)]).yaw = mathPi ∧
    3 < mathPi :=
  C6_average_pose 0 [straightYaw 3, straightYaw (-3)] (List.cons_ne_nil _ _)

/-- C8 counterexample: with the triggering measurement arriving at time 1 but
publication happening at wall-clock time 2, the published header stamp is 2,
not the measurement's arrival time 1. -/
theorem C8_counterexample :
    (average_pose 2 [straightYaw 0]).stamp = 2 ∧
    ¬ (average_pose 2 [straightYaw 0]).stamp = 1 := by
  constructor
  · rfl
  · norm_num [average_pose]

/-- C8 (amended): the published aggregated pose estimate is stamped with the
wall-clock time at the moment of publication (`rospy.Time.now()`), not with
the triggering measurement's arrival time. -/
theorem C8_stamp_is_now (now : ℚ) (pl : List PoseVec) :
    (average_pose now pl).stamp = now := rfl

/-- C8 witness: the amended statement evaluated at publication time 5. -/
theorem C8_witness : (average_pose 5 [straightYaw 0]).stamp = 5 :=
  C8_stamp_is_now 5 [straightYaw 0]

/-- Measurement payload handed to the workers (the mbes ranges array). -/
abbrev Meas := List ℚ

/-- Modelled from the spec: `Particle.meas_update` is defined in
`auv_particle.py`, which is not among the sources here.  Per the spec it
scores the particle's pose against the measurement through the external
measurement model and overwrites the particle's weight with that
likelihood-like non-negative score.  The score function is kept abstract;
the claims assume only the non-negativity the spec states. -/
def meas_update (score : Pose → Meas → ℚ) (m : Meas) (p : Particle) : Particle :=
  { p with w := score p.p_pose m }

/-- Float literal `1.e-30` added to the emitted weights array (exact here;
only its strict positivity matters to the claims). -/
def weightFloor : ℚ := 1 / 10 ^ 30

/-- Embedding of the module-level worker function `update` (lines 300-313):
for `i, id` over `enumerate(range(start_id, end_id))`, run `meas_update` on
`particles[i]` and append `particles[i].w` to `weights` and `id` to `ids`;
then `weights_array = np.asarray(weights)` builds a fresh array from the
Python list and `weights_array += 1.e-30` bumps every entry of that copy;
the function returns `(weights_array, ids)`.  The mutated particle slice is
returned as the first component of the triple. -/
def update (score : Pose → Meas → ℚ) (m : Meas) (particles : List Particle)
    (start_id end_id : ℕ) : List Particle × List ℚ × List ℕ :=
  let n := end_id - start_id
  let updated := (particles.take n).map (meas_update score m) ++ particles.drop n
  let weights := (updated.take n).map Particle.w
  (updated, weights.map (fun w => w + weightFloor), List.range' start_id n)

/-- The worker's particle slice after `update` when the slice exactly fills
the partition: every particle went through `meas_update`. -/
theorem update_fst (score : Pose → Meas → ℚ) (m : Meas) (particles : List Particle)
    (start_id end_id : ℕ) (hlen : particles.length = end_id - start_id) :
    (update score m particles start_id end_id).1
      = particles.map (meas_update score m) := by
  simp only [update]
  rw [← hlen, List.take_length, List.drop_length, List.append_nil]

/-- The weights array the worker emits, in closed form. -/
theorem update_weights (score : Pose → Meas → ℚ) (m : Meas) (particles : List Particle)
    (start_id end_id : ℕ) (hlen : particles.length = end_id - start_id) :
    (update score m particles start_id end_id).2.1
      = particles.map (fun p => score p.p_pose m + weightFloor) := by
  simp only [update]
  rw [← hlen, List.take_length, List.drop_length, List.append_nil]
  rw [List.take_of_length_le (by rw [List.length_map])]
  rw [List.map_map, List.map_map]
  rfl

/-- C9 (score non-negativity modelled from the spec): the emitted weight
array has exactly `end_id - start_id` entries, is paired with the id
sequence `start_id, ..., end_id - 1` in order, and every entry carries the
`1e-30` floor on top of a non-negative score, hence is strictly positive —
so a sum of any non-empty concatenation of such worker outputs is positive
and the downstream normalization never divides by zero. -/
theorem C9_worker_output (score : Pose → Meas → ℚ) (m : Meas)
    (particles : List Particle) (start_id end_id : ℕ)
    (hscore : ∀ po mm, 0 ≤ score po mm)
    (hlen : particles.length = end_id - start_id) :
    (update score m particles start_id end_id).2.1.length = end_id - start_id ∧
    (update score m particles start_id end_id).2.2
        = List.range' start_id (end_id - start_id) ∧
    (∀ w ∈ (update score m particles start_id end_id).2.1,
      weightFloor ≤ w ∧ 0 < w) ∧
    (∀ wss : List (List ℚ), (∀ ws ∈ wss, ∀ w ∈ ws, weightFloor ≤ w) →
      wss.flatten ≠ [] → 0 < wss.flatten.sum) := by
  have hfloor : (0 : ℚ) < weightFloor := by norm_num [weightFloor]
  refine ⟨?_, rfl, ?_, ?_⟩
  · rw [update_weights score m particles start_id end_id hlen, List.length_map, hlen]
  · intro w hw
    rw [update_weights score m particles start_id end_id hlen] at hw
    obtain ⟨p, _, rfl⟩ := List.mem_map.mp hw
    have hnn := hscore p.p_pose m
    constructor
    · linarith
    · linarith
  · intro wss hge hne
    refine List.sum_pos _ ?_ hne
    intro x hx
    obtain ⟨ws, hws, hxw⟩ := List.mem_flatten.mp hx
    have := hge ws hws x hxw
    linarith

/-- C9 witness: one worker owning partition `[0, 1)` with the zero score
function still emits a single positive weight `1e-30` paired with id 0, and
positive-floored outputs sum positively. -/
theorem C9_witness :
    (update (fun _ _ => (0 : ℚ)) [] [default] 0 1).2.1.length = 1 - 0 ∧
    (update (fun _ _ => (0 : ℚ)) [] [default] 0 1).2.2 = List.range' 0 (1 - 0) ∧
    (∀ w ∈ (update (fun _ _ => (0 : ℚ)) [] [default] 0 1).2.1,
      weightFloor ≤ w ∧ 0 < w) ∧
    (∀ wss : List (List ℚ), (∀ ws ∈ wss, ∀ w ∈ ws, weightFloor ≤ w) →
      wss.flatten ≠ [] → 0 < wss.flatten.sum) :=
  C9_worker_output (fun _ _ => (0 : ℚ)) [] [default] 0 1
    (fun _ _ => le_refl 0) rfl

/-- C10 (frame effect of the floor; `meas_update` modelled from the spec):
after `update`, particle `i`'s stored weight is the raw score — possibly
exactly zero, as the zero-score instance shows — while the emitted array
entry is that score plus `1e-30`; the floor is added only to the copied
numpy array, never written back to the particle. -/
theorem C10_raw_weight (score : Pose → Meas → ℚ) (m : Meas)
    (particles : List Particle) (start_id end_id : ℕ)
    (hlen : particles.length = end_id - start_id) :
    (∀ i, i < end_id - start_id →
      ((update score m particles start_id end_id).1.getD i default).w
        = score (particles.getD i default).p_pose m) ∧
    (∀ i, i < end_id - start_id →
      (update score m particles start_id end_id).2.1.getD i 0
        = ((update score m particles start_id end_id).1.getD i default).w
            + weightFloor) ∧
    ((update (fun _ _ => (0 : ℚ)) [] [default] 0 1).1.getD 0 default).w = 0 ∧
    (update (fun _ _ => (0 : ℚ)) [] [default] 0 1).2.1.getD 0 0 = weightFloor := by
  have hfst := update_fst score m particles start_id end_id hlen
  have hw := update_weights score m particles start_id end_id hlen
  refine ⟨?_, ?_, rfl, ?_⟩
  · intro i hi
    have hip : i < particles.length := by omega
    rw [hfst, List.getD_eq_getElem _ _ (by rw [List.length_map]; omega),
      List.getElem_map, List.getD_eq_getElem _ _ hip]
    rfl
  · intro i hi
    have hip : i < particles.length := by omega
    rw [hfst, hw, List.getD_eq_getElem _ _ (by rw [List.length_map]; omega),
      List.getElem_map, List.getD_eq_getElem _ _ (by rw [List.length_map]; omega),
      List.getElem_map]
    rfl
  · norm_num [update, meas_update, weightFloor]

/-- C10 witness: the frame statement evaluated at the zero score, partition
`[0, 1)` and a single default particle. -/
theorem C10_witness :
    (∀ i, i < 1 - 0 →
      ((update (fun _ _ => (0 : ℚ)) [] [default] 0 1).1.getD i default).w
        = (fun (_ : Pose) (_ : Meas) => (0 : ℚ))
            (([default] : List Particle).getD i default).p_pose []) ∧
    (∀ i, i < 1 - 0 →
      (update (fun _ _ => (0 : ℚ)) [] [default] 0 1).2.1.getD i 0
        = ((update (fun _ _ => (0 : ℚ)) [] [default] 0 1).1.getD i default).w
            + weightFloor) ∧
    ((update (fun _ _ => (0 : ℚ)) [] [default] 0 1).1.getD 0 default).w = 0 ∧
    (update (fun _ _ => (0 : ℚ)) [] [default] 0 1).2.1.getD 0 0 = weightFloor :=
  C10_raw_weight (fun _ _ => (0 : ℚ)) [] [default] 0 1 rfl

/-- Closed form of the partition list when the chunk size is positive. -/
theorem partitions_eq (pc nproc : ℕ) (h : chunk_size pc nproc ≠ 0) :
    partitions pc nproc
      = (List.range ((pc + chunk_size pc nproc - 1) / chunk_size pc nproc)).map
          (fun k => (k * chunk_size pc nproc,
            if pc < k * chunk_size pc nproc + chunk_size pc nproc then pc
            else k * chunk_size pc nproc + chunk_size pc nproc)) := by
  simp only [partitions, pyRangeStep, if_neg h, List.map_map]
  rfl

/-- Core facts about the chunked interval list for any positive chunk `c`:
it covers `[0, pc)`, consecutive intervals do not overlap, every interval
stays inside `[0, pc)`, is non-empty, and has at most `c` elements. -/
theorem partitions_core (pc c : ℕ) (hc : 1 ≤ c) (hpc : 1 ≤ pc) :
    (∀ i, i < pc →
      ∃ p ∈ (List.range ((pc + c - 1) / c)).map
          (fun k => (k * c, if pc < k * c + c then pc else k * c + c)),
        p.1 ≤ i ∧ i < p.2) ∧
    List.Pairwise (fun p q : ℕ × ℕ => p.2 ≤ q.1)
      ((List.range ((pc + c - 1) / c)).map
        (fun k => (k * c, if pc < k * c + c then pc else k * c + c))) ∧
    (∀ p ∈ (List.range ((pc + c - 1) / c)).map
        (fun k => (k * c, if pc < k * c + c then pc else k * c + c)),
      p.2 ≤ pc ∧ p.1 < p.2 ∧ p.2 - p.1 ≤ c) := by
  have hm : (pc + c - 1) / c = (pc - 1) / c + 1 := by
    have h1' : pc + c - 1 = (pc - 1) + c := by omega
    rw [h1', Nat.add_div_right _ (by omega : 0 < c)]
  refine ⟨?_, ?_, ?_⟩
  · intro i hi
    refine ⟨(i / c * c, if pc < i / c * c + c then pc else i / c * c + c),
      List.mem_map.mpr ⟨i / c, List.mem_range.mpr ?_, rfl⟩, ?_, ?_⟩
    · rw [hm]
      have hle : i / c ≤ (pc - 1) / c := Nat.div_le_div_right (by omega)
      omega
    · exact Nat.div_mul_le_self i c
    · have hmod := Nat.div_add_mod i c
      have hmod' : i / c * c + i % c = i := by
        rw [Nat.mul_comm] at hmod
        exact hmod
      have hlt : i % c < c := Nat.mod_lt i (by omega)
      by_cases hcase : pc < i / c * c + c
      · rw [if_pos hcase]
        exact hi
      · rw [if_neg hcase]
        omega
  · rw [List.pairwise_map]
    refine (List.pairwise_lt_range _).imp ?_
    intro a b hab
    have hmul : (a + 1) * c ≤ b * c := Nat.mul_le_mul_right c hab
    have hrw : (a + 1) * c = a * c + c := by ring
    by_cases hcase : pc < a * c + c
    · simp only [if_pos hcase]
      omega
    · simp only [if_neg hcase]
      omega
  · intro p hp
    obtain ⟨k, hk, rfl⟩ := List.mem_map.mp hp
    have hkm : k < (pc + c - 1) / c := List.mem_range.mp hk
    have hkb : k ≤ (pc - 1) / c := by
      rw [hm] at hkm
      omega
    have hkc : k * c ≤ pc - 1 := by
      calc k * c ≤ (pc - 1) / c * c := Nat.mul_le_mul_right c hkb
        _ ≤ pc - 1 := Nat.div_mul_le_self _ _
    dsimp only
    refine ⟨?_, ?_, ?_⟩
    · by_cases hcase : pc < k * c + c
      · rw [if_pos hcase]
      · rw [if_neg hcase]
        omega
    · by_cases hcase : pc < k * c + c
      · rw [if_pos hcase]
        omega
      · rw [if_neg hcase]
        omega
    · by_cases hcase : pc < k * c + c
      · rw [if_pos hcase]
        omega
      · rw [if_neg hcase]
        omega

/-- C7 (amended): for `1 ≤ worker_count ≤ N`, the partitions built at
startup do tile `[0, N)` exactly — every id is covered, consecutive
partitions are disjoint, each partition is a non-empty subinterval of
`[0, N)` — but partition sizes are only bounded by the chunk size
`⌊N / worker_count⌋`: any two sizes differ by at most
`⌊N / worker_count⌋ - 1`, not by at most `N mod worker_count`, and the list
may hold more than `worker_count` partitions. -/
theorem C7_partitions_tile (pc nproc : ℕ) (h1 : 1 ≤ nproc) (h2 : nproc ≤ pc) :
    (∀ i, i < pc → ∃ p ∈ partitions pc nproc, p.1 ≤ i ∧ i < p.2) ∧
    List.Pairwise (fun p q : ℕ × ℕ => p.2 ≤ q.1) (partitions pc nproc) ∧
    (∀ p ∈ partitions pc nproc,
      p.2 ≤ pc ∧ p.1 < p.2 ∧ p.2 - p.1 ≤ chunk_size pc nproc) ∧
    (∀ p ∈ partitions pc nproc, ∀ q ∈ partitions pc nproc,
      (p.2 - p.1) - (q.2 - q.1) ≤ chunk_size pc nproc - 1) := by
  have hc : 1 ≤ chunk_size pc nproc := (Nat.one_le_div_iff (by omega)).mpr h2
  have hpc : 1 ≤ pc := le_trans h1 h2
  have hrw := partitions_eq pc nproc (by omega)
  obtain ⟨hcov, hpw, hbound⟩ := partitions_core pc (chunk_size pc nproc) hc hpc
  rw [hrw]
  refine ⟨hcov, hpw, hbound, ?_⟩
  intro p hp q hq
  obtain ⟨_, _, hple⟩ := hbound p hp
  obtain ⟨_, hqlt, _⟩ := hbound q hq
  omega

/-- C7 witness: the amended tiling statement evaluated at N = 10 particles
and 3 workers. -/
theorem C7_witness :
    (∀ i, i < 10 → ∃ p ∈ partitions 10 3, p.1 ≤ i ∧ i < p.2) ∧
    List.Pairwise (fun p q : ℕ × ℕ => p.2 ≤ q.1) (partitions 10 3) ∧
    (∀ p ∈ partitions 10 3,
      p.2 ≤ 10 ∧ p.1 < p.2 ∧ p.2 - p.1 ≤ chunk_size 10 3) ∧
    (∀ p ∈ partitions 10 3, ∀ q ∈ partitions 10 3,
      (p.2 - p.1) - (q.2 - q.1) ≤ chunk_size 10 3 - 1) :=
  C7_partitions_tile 10 3 (by decide) (by decide)

end AuvPF
